import Mathlib

/-!
Shallow embedding of the sampling-timer core of `pkg/sentry/kernel/time/time.go`.

Go's `int64` values are modelled as `Int` together with explicit wrapping
(`wrap64`) at every arithmetic step where Go arithmetic may overflow, and
`uint64` values as `Nat` reduced modulo `2^64` (`toU64` reinterprets an
`int64` bit pattern as unsigned, `ofU64` the converse).  Fields named as in
the source.  The concurrent `Timer` is modelled as a sequential state
machine: each public operation takes the sampled clock value `now` as an
argument (the Go code samples `t.clock.Now()` exactly once per operation and
then works under `t.mu`), the listener is an explicit state-transition
function, and the operations additionally return the list of listener /
callback invocation events they perform, in order.  `Get` and `SwapAnd`
panic on a paused or destroyed timer; this is modelled by returning `none`.
-/

namespace GvisorTime

/-- Lower bound of Go `int64` (`math.MinInt64`). -/
abbrev i64min : Int := -(2 ^ 63)

/-- Upper bound of Go `int64` (`math.MaxInt64`). -/
abbrev i64max : Int := 2 ^ 63 - 1

/-- Two's-complement wrap-around of Go `int64` arithmetic. -/
def wrap64 (x : Int) : Int := (x + 2 ^ 63) % 2 ^ 64 - 2 ^ 63

/-- Go conversion `uint64(x)` of an `int64` value: bit reinterpretation. -/
def toU64 (x : Int) : Nat := (x % 2 ^ 64).toNat

/-- Go conversion `int64(n)` / `time.Duration(n)` of a `uint64` value. -/
def ofU64 (n : Nat) : Int := wrap64 (n : Int)

/-- The value is representable as a Go `int64`. -/
def wf64 (x : Int) : Prop := i64min ≤ x ∧ x ≤ i64max

instance (x : Int) : Decidable (wf64 x) := by
  unfold wf64; infer_instance

/-- `Time` from time.go: an instant, a signed 64-bit nanosecond count. -/
structure Time where
  ns : Int
deriving DecidableEq

/-- `MinTime`: the lowest representable instant. -/
def MinTime : Time := ⟨i64min⟩

/-- `MaxTime`: the highest representable instant. -/
def MaxTime : Time := ⟨i64max⟩

/-- `ZeroTime`: the zero instant. -/
def ZeroTime : Time := ⟨0⟩

/-- `MinDuration` from time.go (`time.Duration` is a signed 64-bit
nanosecond count, modelled as `Int`). -/
def MinDuration : Int := i64min

/-- `MaxDuration` from time.go. -/
def MaxDuration : Int := i64max

/-- `FromNanoseconds` from time.go. -/
def FromNanoseconds (ns : Int) : Time := ⟨ns⟩

/-- `FromSeconds` from time.go: only positive overflow of `s * 1e9` is
checked (`s > math.MaxInt64/1e9`); otherwise the product is Go (wrapping)
`int64` multiplication. -/
def FromSeconds (s : Int) : Time :=
  if s > i64max / 10 ^ 9 then MaxTime else ⟨wrap64 (s * 10 ^ 9)⟩

/-- `FromUnix` from time.go.  Both `math.MaxInt64 - ns` and `t + ns` are Go
(wrapping) `int64` arithmetic. -/
def FromUnix (s : Int) (ns : Int) : Time :=
  if s > i64max / 10 ^ 9 then MaxTime
  else
    let t := wrap64 (s * 10 ^ 9)
    if t > wrap64 (i64max - ns) then MaxTime
    else ⟨wrap64 (t + ns)⟩

/-- `Time.Add` from time.go.  The two guard subtractions cannot overflow for
in-range `t.ns`, so they are modelled exactly. -/
def Time.Add (t : Time) (d : Int) : Time :=
  if t.ns > 0 ∧ d > i64max - t.ns then MaxTime
  else if t.ns < 0 ∧ d < i64min - t.ns then MinTime
  else ⟨t.ns + d⟩

/-- `Time.AddTime` from time.go. -/
def Time.AddTime (t u : Time) : Time := t.Add u.ns

/-- `Time.Equal` from time.go. -/
def Time.Equal (t u : Time) : Bool := decide (t.ns = u.ns)

/-- `Time.Before` from time.go. -/
def Time.Before (t u : Time) : Bool := decide (t.ns < u.ns)

/-- `Time.After` from time.go. -/
def Time.After (t u : Time) : Bool := decide (u.ns < t.ns)

/-- `Time.Sub` from time.go: the subtraction `t.ns - u.ns` is Go (wrapping)
`int64` arithmetic; overflow is detected by the `u.Add(dur).Equal(t)`
round-trip and saturated to `MinDuration` / `MaxDuration`. -/
def Time.Sub (t u : Time) : Int :=
  let dur := wrap64 (t.ns - u.ns)
  if (u.Add dur).Equal t then dur
  else if t.Before u then MinDuration
  else MaxDuration

/-- `Time.IsMin` from time.go. -/
def Time.IsMin (t : Time) : Bool := decide (t = MinTime)

/-- `Time.IsZero` from time.go. -/
def Time.IsZero (t : Time) : Bool := decide (t = ZeroTime)

/-- The error domain of the core: `linuxerr.EINVAL` is the only error. -/
inductive LinuxError where
  | EINVAL
deriving DecidableEq

/-- `Setting` from time.go. -/
structure Setting where
  Enabled : Bool
  Next : Time
  Period : Int
deriving DecidableEq

/-- `SettingFromSpecAt` from time.go.  `Setting{Period: interval}` is the Go
zero value with `Period` set: `Enabled = false`, `Next = Time{0}`. -/
def SettingFromSpecAt (value : Int) (interval : Int) (now : Time) :
    Except LinuxError Setting :=
  if value < 0 then .error .EINVAL
  else if value = 0 then .ok ⟨false, ZeroTime, interval⟩
  else .ok ⟨true, now.Add value, interval⟩

/-- `SettingFromAbsSpec` from time.go. -/
def SettingFromAbsSpec (value : Time) (interval : Int) :
    Except LinuxError Setting :=
  if value.Before ZeroTime then .error .EINVAL
  else if value.IsZero then .ok ⟨false, ZeroTime, interval⟩
  else .ok ⟨true, value, interval⟩

/-- `Setting.At` from time.go.  `exp` is computed in Go `uint64` arithmetic:
`1 + uint64(now.Sub(s.Next).Nanoseconds())/uint64(s.Period)`, and the
increment of `Next` is `s.Next.Add(time.Duration(uint64(s.Period) * exp))`. -/
def Setting.At (s : Setting) (now : Time) : Setting × Nat :=
  if ¬s.Enabled then (s, 0)
  else if s.Next.After now then (s, 0)
  else if s.Period = 0 then ({ s with Enabled := false }, 1)
  else
    let exp := (1 + toU64 (now.Sub s.Next) / toU64 s.Period) % 2 ^ 64
    ({ s with Next := s.Next.Add (ofU64 (toU64 s.Period * exp % 2 ^ 64)) }, exp)

/-- `timerPauseState` from time.go. -/
inductive PauseState where
  | timerUnpaused
  | timerPaused
  | timerDestroyed
deriving DecidableEq

/-- A `Listener` with internal state `σ`: `NotifyTimer` consumes the state
and returns the new state together with `(newSetting, update)` as in
time.go. -/
structure Listener (σ : Type) where
  NotifyTimer : σ → Nat → Setting → σ × Setting × Bool

/-- An observable event of a timer operation: a `NotifyTimer(exp, setting)`
invocation, or the invocation of the `f` callback of `SwapAnd`. -/
inductive TEvent where
  | notifyEv (exp : Nat) (s : Setting)
  | fcallEv
deriving DecidableEq

/-- The persistent mutable state of a `Timer` from time.go: its `setting`,
its `pauseState`, and the state of its listener. -/
structure TimerState (σ : Type) where
  setting : Setting
  pauseState : PauseState
  lst : σ

/-- `Timer.Tick` from time.go, with the sampled clock value `now` as an
argument.  Returns the new timer state and the listener events, in order. -/
def Timer.Tick (L : Listener σ) (t : TimerState σ) (now : Time) :
    TimerState σ × List TEvent :=
  if t.pauseState ≠ .timerUnpaused then (t, [])
  else
    let r := t.setting.At now
    if r.2 > 0 then
      let n := L.NotifyTimer t.lst r.2 r.1
      (⟨if n.2.2 then n.2.1 else r.1, t.pauseState, n.1⟩, [.notifyEv r.2 r.1])
    else (⟨r.1, t.pauseState, t.lst⟩, [])

/-- `Timer.Get` from time.go.  The panic on a paused or destroyed timer is
modelled as `none`.  Returns the new timer state, the events, and the
`(now, setting)` return value. -/
def Timer.Get (L : Listener σ) (t : TimerState σ) (now : Time) :
    Option (TimerState σ × List TEvent × Time × Setting) :=
  if t.pauseState ≠ .timerUnpaused then none
  else
    let r := t.setting.At now
    if r.2 > 0 then
      let n := L.NotifyTimer t.lst r.2 r.1
      some (⟨if n.2.2 then n.2.1 else r.1, t.pauseState, n.1⟩, [.notifyEv r.2 r.1], now, r.1)
    else some (⟨r.1, t.pauseState, t.lst⟩, [], now, r.1)

/-- `Timer.SwapAnd` from time.go.  `hasF` records whether the `f` callback
is non-nil; its invocation is modelled as the event `fcallEv`.  The
`(Setting, Bool)` returned by the first `NotifyTimer` is discarded exactly
as in the source (only the listener state advances). -/
def Timer.SwapAnd (L : Listener σ) (t : TimerState σ) (s : Setting)
    (hasF : Bool) (now : Time) :
    Option (TimerState σ × List TEvent × Time × Setting) :=
  if t.pauseState ≠ .timerUnpaused then none
  else
    let old := t.setting.At now
    let l1 := if old.2 > 0 then (L.NotifyTimer t.lst old.2 old.1).1 else t.lst
    let evs1 := if old.2 > 0 then [TEvent.notifyEv old.2 old.1] else []
    let evs2 := if hasF then [TEvent.fcallEv] else []
    let nw := s.At now
    let l2 := if nw.2 > 0 then (L.NotifyTimer l1 nw.2 nw.1).1 else l1
    let finalS :=
      if nw.2 > 0 then
        (if (L.NotifyTimer l1 nw.2 nw.1).2.2 then (L.NotifyTimer l1 nw.2 nw.1).2.1 else nw.1)
      else nw.1
    let evs3 := if nw.2 > 0 then [TEvent.notifyEv nw.2 nw.1] else []
    some (⟨finalS, t.pauseState, l2⟩, evs1 ++ evs2 ++ evs3, now, old.1)

/-- `Timer.Swap` from time.go: `SwapAnd` with a nil `f`. -/
def Timer.Swap (L : Listener σ) (t : TimerState σ) (s : Setting) (now : Time) :
    Option (TimerState σ × List TEvent × Time × Setting) :=
  Timer.SwapAnd L t s false now

/-- `Timer.Destroy` from time.go: disables the setting and sets the pause
state to `timerDestroyed`. -/
def Timer.Destroy (t : TimerState σ) : TimerState σ :=
  ⟨⟨false, t.setting.Next, t.setting.Period⟩, .timerDestroyed, t.lst⟩

/-- `Timer.Pause` from time.go. -/
def Timer.Pause (t : TimerState σ) : TimerState σ :=
  if t.pauseState ≠ .timerUnpaused then t else ⟨t.setting, .timerPaused, t.lst⟩

/-- `Timer.Resume` from time.go. -/
def Timer.Resume (t : TimerState σ) : TimerState σ :=
  if t.pauseState ≠ .timerPaused then t else ⟨t.setting, .timerUnpaused, t.lst⟩

/-- One public timer operation, with the clock value it samples. -/
inductive TOp where
  | tickOp (now : Time)
  | getOp (now : Time)
  | swapOp (s : Setting) (now : Time)
  | swapAndOp (s : Setting) (hasF : Bool) (now : Time)
  | pauseOp
  | resumeOp
  | destroyOp

/-- Execute one operation; `none` models a panic (`Get` / `Swap` /
`SwapAnd` on a paused or destroyed timer). -/
def Timer.step (L : Listener σ) (t : TimerState σ) :
    TOp → Option (TimerState σ × List TEvent)
  | .tickOp now => some (Timer.Tick L t now)
  | .getOp now => (Timer.Get L t now).map fun r => (r.1, r.2.1)
  | .swapOp s now => (Timer.Swap L t s now).map fun r => (r.1, r.2.1)
  | .swapAndOp s hasF now => (Timer.SwapAnd L t s hasF now).map fun r => (r.1, r.2.1)
  | .pauseOp => some (Timer.Pause t, [])
  | .resumeOp => some (Timer.Resume t, [])
  | .destroyOp => some (Timer.Destroy t, [])

/-- Execute a sequence of operations, collecting all listener events in
order; a panic aborts the run. -/
def Timer.run (L : Listener σ) (t : TimerState σ) :
    List TOp → TimerState σ × List TEvent
  | [] => (t, [])
  | op :: ops =>
    match Timer.step L t op with
    | none => (t, [])
    | some (t2, evs) =>
      let r := Timer.run L t2 ops
      (r.1, evs ++ r.2)

/-! ## Arithmetic helper lemmas -/

theorem wrap64_eq_self (x : Int) (h1 : i64min ≤ x) (h2 : x ≤ i64max) :
    wrap64 x = x := by
  unfold wrap64 i64min i64max at *
  omega

theorem i64min_eq : i64min = -(2 ^ 63) := rfl

theorem i64max_eq : i64max = 2 ^ 63 - 1 := rfl

theorem Time.Add_exact (u : Time) (d : Int)
    (h1 : i64min ≤ u.ns + d) (h2 : u.ns + d ≤ i64max) :
    u.Add d = ⟨u.ns + d⟩ := by
  have hmin := i64min_eq
  have hmax := i64max_eq
  have c1 : ¬(u.ns > 0 ∧ d > i64max - u.ns) := by omega
  have c2 : ¬(u.ns < 0 ∧ d < i64min - u.ns) := by omega
  unfold Time.Add
  rw [if_neg c1, if_neg c2]

theorem Time.Add_sat_max (u : Time) (d : Int)
    (hd : d ≤ i64max) (h : i64max < u.ns + d) :
    u.Add d = MaxTime := by
  have hmin := i64min_eq
  have hmax := i64max_eq
  have c1 : u.ns > 0 ∧ d > i64max - u.ns := by omega
  unfold Time.Add
  rw [if_pos c1]

theorem Time.Add_sat_min (u : Time) (d : Int)
    (hd : i64min ≤ d) (h : u.ns + d < i64min) :
    u.Add d = MinTime := by
  have hmin := i64min_eq
  have hmax := i64max_eq
  have c1 : ¬(u.ns > 0 ∧ d > i64max - u.ns) := by omega
  have c2 : u.ns < 0 ∧ d < i64min - u.ns := by omega
  unfold Time.Add
  rw [if_neg c1, if_pos c2]

/-- For `u ≤ t` (both in `int64` range), `t.Sub u` returns the exact
difference when it fits in `int64`, and saturates to `MaxDuration`
otherwise. -/
theorem Time.Sub_of_le (t u : Time) (ht : wf64 t.ns) (hu : wf64 u.ns)
    (h : u.ns ≤ t.ns) :
    t.Sub u = if t.ns - u.ns ≤ i64max then t.ns - u.ns else MaxDuration := by
  obtain ⟨ht1, ht2⟩ := ht
  obtain ⟨hu1, hu2⟩ := hu
  have hmin := i64min_eq
  have hmax := i64max_eq
  by_cases hc : t.ns - u.ns ≤ i64max
  · rw [if_pos hc]
    have hw : wrap64 (t.ns - u.ns) = t.ns - u.ns :=
      wrap64_eq_self _ (by omega) hc
    have ha : u.Add (t.ns - u.ns) = ⟨t.ns⟩ := by
      rw [Time.Add_exact u (t.ns - u.ns) (by omega) (by omega)]
      simp only [Time.mk.injEq]
      ring
    unfold Time.Sub
    simp only [hw, ha]
    simp [Time.Equal]
  · rw [if_neg hc]
    have hw : wrap64 (t.ns - u.ns) = t.ns - u.ns - 2 ^ 64 := by
      unfold wrap64
      omega
    have ha : u.Add (t.ns - u.ns - 2 ^ 64) = MinTime :=
      Time.Add_sat_min u (t.ns - u.ns - 2 ^ 64) (by omega) (by omega)
    have hne : (MinTime.Equal t) = false := by
      simp only [Time.Equal, MinTime, decide_eq_false_iff_not]
      intro hcontra
      omega
    have hnb : (t.Before u) = false := by
      simp only [Time.Before, decide_eq_false_iff_not]
      omega
    unfold Time.Sub
    simp only [hw, ha]
    simp [hne, hnb]

theorem toU64_of_range (x : Int) (h1 : 0 ≤ x) (h2 : x ≤ i64max) :
    toU64 x = x.toNat := by
  unfold toU64 i64max at *
  omega

theorem ofU64_of_range (n : Nat) (h : (n : Int) ≤ i64max) :
    ofU64 n = (n : Int) := by
  unfold ofU64
  exact wrap64_eq_self _ (by unfold i64min; omega) h

/-! ## Branch lemmas for `Setting.At` -/

theorem Setting.At_disabled (s : Setting) (now : Time) (h : s.Enabled = false) :
    s.At now = (s, 0) := by
  have c : ¬s.Enabled = true := by simp [h]
  unfold Setting.At
  rw [if_pos c]

theorem Setting.At_early (s : Setting) (now : Time) (h : s.Enabled = true)
    (hlt : now.ns < s.Next.ns) :
    s.At now = (s, 0) := by
  have c1 : ¬(¬s.Enabled = true) := by simp [h]
  have c2 : s.Next.After now = true := by
    simp only [Time.After, decide_eq_true_eq]
    omega
  unfold Setting.At
  rw [if_neg c1, if_pos c2]

theorem Setting.At_oneshot (s : Setting) (now : Time) (h : s.Enabled = true)
    (hle : s.Next.ns ≤ now.ns) (hp : s.Period = 0) :
    s.At now = (⟨false, s.Next, s.Period⟩, 1) := by
  have c1 : ¬(¬s.Enabled = true) := by simp [h]
  have c2 : ¬(s.Next.After now = true) := by
    simp only [Time.After, decide_eq_true_eq]
    omega
  unfold Setting.At
  rw [if_neg c1, if_neg c2, if_pos hp]

/-- The periodic-fire branch of `Setting.At`, under hypotheses ruling out
`int64` saturation: the expiration count is exactly
`1 + (now - next) / period` and `Next` advances by `period * exp`. -/
theorem Setting.At_periodic (s : Setting) (now : Time)
    (hN : wf64 s.Next.ns) (hnow : wf64 now.ns)
    (hen : s.Enabled = true) (hp : 0 < s.Period) (hpmax : s.Period ≤ i64max)
    (hle : s.Next.ns ≤ now.ns) (hdiff : now.ns - s.Next.ns ≤ i64max)
    (hmul : s.Period * ((1 + (now.ns - s.Next.ns).toNat / s.Period.toNat : Nat) : Int) ≤ i64max)
    (hadd : s.Next.ns + s.Period * ((1 + (now.ns - s.Next.ns).toNat / s.Period.toNat : Nat) : Int) ≤ i64max) :
    s.At now =
      (⟨true, ⟨s.Next.ns + s.Period * ((1 + (now.ns - s.Next.ns).toNat / s.Period.toNat : Nat) : Int)⟩, s.Period⟩,
        1 + (now.ns - s.Next.ns).toNat / s.Period.toNat) := by
  obtain ⟨hN1, hN2⟩ := hN
  obtain ⟨hn1, hn2⟩ := hnow
  have hmin := i64min_eq
  have hmax := i64max_eq
  have hPcast : (s.Period.toNat : Int) = s.Period := Int.toNat_of_nonneg (le_of_lt hp)
  have hsub : now.Sub s.Next = now.ns - s.Next.ns := by
    rw [Time.Sub_of_le now s.Next ⟨hn1, hn2⟩ ⟨hN1, hN2⟩ hle]
    rw [if_pos hdiff]
  have htd : toU64 (now.ns - s.Next.ns) = (now.ns - s.Next.ns).toNat :=
    toU64_of_range (now.ns - s.Next.ns) (by omega) hdiff
  have htp : toU64 s.Period = s.Period.toNat :=
    toU64_of_range s.Period (by omega) hpmax
  have hq : (now.ns - s.Next.ns).toNat / s.Period.toNat ≤ (now.ns - s.Next.ns).toNat :=
    Nat.div_le_self _ _
  have hexp : (1 + (now.ns - s.Next.ns).toNat / s.Period.toNat) % 2 ^ 64 =
      1 + (now.ns - s.Next.ns).toNat / s.Period.toNat := by
    apply Nat.mod_eq_of_lt
    omega
  have hprod : ((s.Period.toNat * (1 + (now.ns - s.Next.ns).toNat / s.Period.toNat) : Nat) : Int) =
      s.Period * ((1 + (now.ns - s.Next.ns).toNat / s.Period.toNat : Nat) : Int) := by
    push_cast [hPcast]
    ring
  have hprodnn : (0 : Int) ≤ s.Period * ((1 + (now.ns - s.Next.ns).toNat / s.Period.toNat : Nat) : Int) :=
    mul_nonneg (le_of_lt hp) (by positivity)
  have hmulN : s.Period.toNat * (1 + (now.ns - s.Next.ns).toNat / s.Period.toNat) % 2 ^ 64 =
      s.Period.toNat * (1 + (now.ns - s.Next.ns).toNat / s.Period.toNat) := by
    apply Nat.mod_eq_of_lt
    have hZ : ((s.Period.toNat * (1 + (now.ns - s.Next.ns).toNat / s.Period.toNat) : Nat) : Int) < 2 ^ 64 := by
      rw [hprod]
      omega
    exact_mod_cast hZ
  have hof : ofU64 (s.Period.toNat * (1 + (now.ns - s.Next.ns).toNat / s.Period.toNat)) =
      s.Period * ((1 + (now.ns - s.Next.ns).toNat / s.Period.toNat : Nat) : Int) := by
    rw [ofU64_of_range _ (by rw [hprod]; omega)]
    exact hprod
  have cEn : ¬(¬s.Enabled = true) := by simp [hen]
  have cAfter : ¬(s.Next.After now = true) := by
    simp only [Time.After, decide_eq_true_eq]
    omega
  have cPer : ¬(s.Period = 0) := by omega
  unfold Setting.At
  rw [if_neg cEn, if_neg cAfter, if_neg cPer]
  simp only [hsub, htd, htp, hexp, hmulN, hof, hen]
  clear cEn cAfter cPer hof hmulN hexp hq htp htd hsub hPcast hprod
  set E := s.Period * ((1 + (now.ns - s.Next.ns).toNat / s.Period.toNat : Nat) : Int) with hE
  have c1 : ¬(s.Next.ns > 0 ∧ E > i64max - s.Next.ns) := by
    rintro ⟨a1, a2⟩
    omega
  have c2 : ¬(s.Next.ns < 0 ∧ E < i64min - s.Next.ns) := by
    rintro ⟨a1, a2⟩
    omega
  unfold Time.Add
  rw [if_neg c1, if_neg c2]

theorem Time.Sub_le_bound (t u : Time) (ht : wf64 t.ns) (hu : wf64 u.ns)
    (h : u.ns ≤ t.ns) :
    0 ≤ t.Sub u ∧ t.Sub u ≤ i64max := by
  have hmax := i64max_eq
  rw [Time.Sub_of_le t u ht hu h]
  split_ifs with hc
  · exact ⟨by omega, hc⟩
  · unfold MaxDuration
    exact ⟨by omega, le_refl _⟩

/-- The shape of the periodic-fire branch of `Setting.At`, with no
assumption on the magnitudes involved. -/
theorem Setting.At_fire (s : Setting) (now : Time) (h : s.Enabled = true)
    (hle : ¬(s.Next.After now = true)) (hp : s.Period ≠ 0) :
    s.At now =
      ({ s with Next := s.Next.Add (ofU64 (toU64 s.Period *
          ((1 + toU64 (now.Sub s.Next) / toU64 s.Period) % 2 ^ 64) % 2 ^ 64)) },
        (1 + toU64 (now.Sub s.Next) / toU64 s.Period) % 2 ^ 64) := by
  have c1 : ¬(¬s.Enabled = true) := by simp [h]
  unfold Setting.At
  rw [if_neg c1, if_neg hle, if_neg hp]

/-- In the periodic-fire branch the expiration count is positive: the
`uint64` increment `1 + q` cannot wrap because `q ≤ 2^63 - 1`. -/
theorem Setting.At_fire_pos (s : Setting) (now : Time)
    (hN : wf64 s.Next.ns) (hnow : wf64 now.ns)
    (h : s.Enabled = true) (hle : s.Next.ns ≤ now.ns)
    (hp : s.Period ≠ 0) :
    0 < (s.At now).2 := by
  have hmax := i64max_eq
  have hA : ¬(s.Next.After now = true) := by
    simp only [Time.After, decide_eq_true_eq]
    omega
  rw [Setting.At_fire s now h hA hp]
  show 0 < (1 + toU64 (now.Sub s.Next) / toU64 s.Period) % 2 ^ 64
  obtain ⟨hs0, hs1⟩ := Time.Sub_le_bound now s.Next hnow hN hle
  have htu : toU64 (now.Sub s.Next) = (now.Sub s.Next).toNat :=
    toU64_of_range _ hs0 hs1
  rw [htu]
  revert hs0 hs1
  generalize now.Sub s.Next = D
  generalize toU64 s.Period = P
  intro hs0 hs1
  have htn : D.toNat ≤ 2 ^ 63 - 1 := by omega
  have hq : D.toNat / P ≤ D.toNat := Nat.div_le_self _ _
  revert hq
  generalize D.toNat / P = Q
  intro hq
  have hlt : 1 + Q < 2 ^ 64 := by omega
  rw [Nat.mod_eq_of_lt hlt]
  omega

/-! ## Claims C1, C2, C10 about `Setting.At` -/

/-- C1 (amended): for an enabled periodic setting with `next = n₀`,
`period = p > 0` and `now ≥ n₀`, `Setting.At` returns
`exp = 1 + (now.ns - n₀.ns) / p` and the setting
`{Enabled, Next = n₀ + exp·p, Period = p}` — provided the computation does
not saturate: `now.ns - n₀.ns ≤ MaxInt64`, `exp·p ≤ MaxInt64` and
`n₀.ns + exp·p ≤ MaxInt64`.  (Without these bounds the claim is false; see
the counterexample.) -/
theorem C1_At_periodic_exact (s : Setting) (now : Time)
    (hN : wf64 s.Next.ns) (hnow : wf64 now.ns)
    (hen : s.Enabled = true) (hp : 0 < s.Period) (hpmax : s.Period ≤ i64max)
    (hle : s.Next.ns ≤ now.ns) (hdiff : now.ns - s.Next.ns ≤ i64max)
    (hmul : s.Period * ((1 + (now.ns - s.Next.ns).toNat / s.Period.toNat : Nat) : Int) ≤ i64max)
    (hadd : s.Next.ns + s.Period * ((1 + (now.ns - s.Next.ns).toNat / s.Period.toNat : Nat) : Int) ≤ i64max) :
    s.At now =
      (⟨true, ⟨s.Next.ns + s.Period * ((1 + (now.ns - s.Next.ns).toNat / s.Period.toNat : Nat) : Int)⟩, s.Period⟩,
        1 + (now.ns - s.Next.ns).toNat / s.Period.toNat) :=
  Setting.At_periodic s now hN hnow hen hp hpmax hle hdiff hmul hadd

/-- C1 witness: the periodic setting `{Enabled, Next = 10, Period = 10}` at
`now = 35` expires `exp = 1 + 25/10 = 3` times and advances `Next` to
`10 + 3·10 = 40`. -/
theorem C1_witness :
    Setting.At ⟨true, ⟨10⟩, 10⟩ ⟨35⟩ = (⟨true, ⟨40⟩, 10⟩, 3) := by
  have h := C1_At_periodic_exact ⟨true, ⟨10⟩, 10⟩ ⟨35⟩ (by decide) (by decide)
    (by decide) (by decide) (by decide) (by decide) (by decide) (by decide) (by decide)
  simpa using h

/-- C1 counterexample: for the enabled setting `{Next = MinTime, Period = 1}`
and `now = MaxTime` (so `now ≥ next`, `period > 0`), the claim's formula
`(1 + uint64(now.ns - next.ns) / uint64(p)) mod 2^64` yields `0`, but the
code returns `2^63` (because `Time.Sub` saturates the difference to
`MaxDuration = 2^63 - 1`); the claim's `next' = n₀ + exp·p` also fails, the
code returning `MinTime` instead. -/
theorem C1_counterexample :
    (Setting.At ⟨true, ⟨i64min⟩, 1⟩ ⟨i64max⟩).2 = 2 ^ 63
    ∧ (1 + toU64 ((i64max : Int) - i64min) / toU64 1) % 2 ^ 64 = 0
    ∧ (Setting.At ⟨true, ⟨i64min⟩, 1⟩ ⟨i64max⟩).1.Next = ⟨i64min⟩ := by
  refine ⟨?_, by decide, ?_⟩ <;> decide

/-- C2 (amended): after `(s', e) = s.At now`, for every `now' ≤ now`,
`s'.At now' = (s', 0)` — provided the setting is well-formed
(`Period ≥ 0`) and, in the periodic-fire case, the advance does not
saturate (same bounds as C1; without them the claim is false, see the
counterexample). -/
theorem C2_At_monotone (s : Setting) (now now' : Time)
    (hN : wf64 s.Next.ns) (hnow : wf64 now.ns)
    (hper0 : 0 ≤ s.Period) (hpmax : s.Period ≤ i64max)
    (hle' : now'.ns ≤ now.ns)
    (hover : s.Enabled = true → s.Next.ns ≤ now.ns → 0 < s.Period →
      now.ns - s.Next.ns ≤ i64max
      ∧ s.Period * ((1 + (now.ns - s.Next.ns).toNat / s.Period.toNat : Nat) : Int) ≤ i64max
      ∧ s.Next.ns + s.Period * ((1 + (now.ns - s.Next.ns).toNat / s.Period.toNat : Nat) : Int) ≤ i64max) :
    ((s.At now).1).At now' = ((s.At now).1, 0) := by
  by_cases he : s.Enabled = true
  · by_cases hlt : now.ns < s.Next.ns
    · rw [Setting.At_early s now he hlt]
      exact Setting.At_early s now' he (by omega)
    · have hle : s.Next.ns ≤ now.ns := by omega
      by_cases hP : s.Period = 0
      · rw [Setting.At_oneshot s now he hle hP]
        exact Setting.At_disabled _ now' rfl
      · have hp : 0 < s.Period := by omega
        obtain ⟨h1, h2, h3⟩ := hover he hle hp
        rw [Setting.At_periodic s now hN hnow he hp hpmax hle h1 h2 h3]
        apply Setting.At_early _ now' rfl
        show now'.ns < s.Next.ns + s.Period * ((1 + (now.ns - s.Next.ns).toNat / s.Period.toNat : Nat) : Int)
        have hPcast : (s.Period.toNat : Int) = s.Period := Int.toNat_of_nonneg (le_of_lt hp)
        have hdN : ((now.ns - s.Next.ns).toNat : Int) = now.ns - s.Next.ns :=
          Int.toNat_of_nonneg (by omega)
        have hdist : s.Period.toNat * (1 + (now.ns - s.Next.ns).toNat / s.Period.toNat) =
            s.Period.toNat + s.Period.toNat * ((now.ns - s.Next.ns).toNat / s.Period.toNat) := by
          ring
        have hdm := Nat.div_add_mod (now.ns - s.Next.ns).toNat s.Period.toNat
        have hpN : 0 < s.Period.toNat := by omega
        have hmod := Nat.mod_lt (now.ns - s.Next.ns).toNat hpN
        have hkey : (now.ns - s.Next.ns).toNat <
            s.Period.toNat * (1 + (now.ns - s.Next.ns).toNat / s.Period.toNat) := by
          rw [hdist]
          omega
        have hcast : ((s.Period.toNat * (1 + (now.ns - s.Next.ns).toNat / s.Period.toNat) : Nat) : Int) =
            s.Period * ((1 + (now.ns - s.Next.ns).toNat / s.Period.toNat : Nat) : Int) := by
          push_cast [hPcast]
          ring
        omega
  · have he' : s.Enabled = false := by
      revert he
      cases s.Enabled <;> simp
    rw [Setting.At_disabled s now he']
    exact Setting.At_disabled _ now' he'

/-- C2 witness: the periodic setting `{Enabled, Next = 10, Period = 10}`
advanced at `now = 35` yields `next = 40`; re-advancing the result at
`now' = 35` changes nothing and reports zero expirations. -/
theorem C2_witness :
    ((Setting.At ⟨true, ⟨10⟩, 10⟩ ⟨35⟩).1).At ⟨35⟩ =
      ((Setting.At ⟨true, ⟨10⟩, 10⟩ ⟨35⟩).1, 0) := by
  have h := C2_At_monotone ⟨true, ⟨10⟩, 10⟩ ⟨35⟩ ⟨35⟩ (by decide) (by decide)
    (by decide) (by decide) (by decide) (fun _ _ _ => by refine ⟨?_, ?_, ?_⟩ <;> decide)
  exact h

/-- C2 counterexample: for `s = {Enabled, Next = MinTime, Period = 1}` and
`now = now' = 0`, the advanced setting has `Next = MinTime` again (the
increment wraps), so re-advancing it at the same instant reports `2^63`
further expirations instead of `0`. -/
theorem C2_counterexample :
    ¬(((Setting.At ⟨true, ⟨i64min⟩, 1⟩ ⟨0⟩).1).At ⟨0⟩ =
        ((Setting.At ⟨true, ⟨i64min⟩, 1⟩ ⟨0⟩).1, 0)) := by
  decide

/-- C10: `Setting.At` never changes `Period`; it changes `Next` only in the
enabled periodic-fire branch (`Enabled`, `Next ≤ now`, `Period > 0`); and
whenever it returns zero expirations the setting is returned unchanged. -/
theorem C10_At_frame (s : Setting) (now : Time)
    (hN : wf64 s.Next.ns) (hnow : wf64 now.ns)
    (hper0 : 0 ≤ s.Period) :
    (s.At now).1.Period = s.Period
    ∧ ((s.At now).2 = 0 → (s.At now).1 = s)
    ∧ (¬(s.Enabled = true ∧ s.Next.ns ≤ now.ns ∧ 0 < s.Period) →
        (s.At now).1.Next = s.Next) := by
  by_cases he : s.Enabled = true
  · by_cases hlt : now.ns < s.Next.ns
    · rw [Setting.At_early s now he hlt]
      exact ⟨rfl, fun _ => rfl, fun _ => rfl⟩
    · have hle : s.Next.ns ≤ now.ns := by omega
      by_cases hP : s.Period = 0
      · rw [Setting.At_oneshot s now he hle hP]
        exact ⟨rfl, fun h0 => absurd h0 one_ne_zero, fun _ => rfl⟩
      · have hpos := Setting.At_fire_pos s now hN hnow he hle hP
        have hA : ¬(s.Next.After now = true) := by
          simp only [Time.After, decide_eq_true_eq]
          omega
        refine ⟨?_, fun h0 => absurd h0 (by omega), fun hc => absurd ⟨he, hle, by omega⟩ hc⟩
        rw [Setting.At_fire s now he hA hP]
  · have he' : s.Enabled = false := by
      revert he
      cases s.Enabled <;> simp
    rw [Setting.At_disabled s now he']
    exact ⟨rfl, fun _ => rfl, fun _ => rfl⟩

/-- C10 witness: at the disabled setting `{Next = 7, Period = 5}` and
`now = 100`, `Setting.At` returns the setting unchanged with `0`
expirations. -/
theorem C10_witness :
    (Setting.At ⟨false, ⟨7⟩, 5⟩ ⟨100⟩).1.Period = 5
    ∧ (Setting.At ⟨false, ⟨7⟩, 5⟩ ⟨100⟩).1 = ⟨false, ⟨7⟩, 5⟩ := by
  have h := C10_At_frame ⟨false, ⟨7⟩, 5⟩ ⟨100⟩ (by decide) (by decide) (by decide)
  exact ⟨h.1, h.2.1 (by decide)⟩

/-! ## Claims C5, C6, C7 about instants and constructors -/

theorem Time.eq_of_ns (a b : Time) (h : a.ns = b.ns) : a = b := by
  cases a
  cases b
  simpa using h

/-- C5: `t.Sub u` computes the wrapped `int64` difference `d`; when the
round-trip `u.Add(d) == t` succeeds it returns `d` — which then equals the
mathematical difference `t.ns - u.ns` — and otherwise it saturates to
`MinDuration` when `t < u` and `MaxDuration` when not; consequently
whenever `t.Sub u` is neither `MinDuration` nor `MaxDuration`,
`u.Add (t.Sub u) = t`. -/
theorem C5_Sub_saturating (t u : Time) (ht : wf64 t.ns) (hu : wf64 u.ns) :
    ((u.Add (wrap64 (t.ns - u.ns))).Equal t = true →
        t.Sub u = wrap64 (t.ns - u.ns) ∧ wrap64 (t.ns - u.ns) = t.ns - u.ns)
    ∧ ((u.Add (wrap64 (t.ns - u.ns))).Equal t = false →
        t.Sub u = if t.Before u then MinDuration else MaxDuration)
    ∧ (t.Sub u ≠ MinDuration → t.Sub u ≠ MaxDuration → u.Add (t.Sub u) = t) := by
  obtain ⟨ht1, ht2⟩ := ht
  obtain ⟨hu1, hu2⟩ := hu
  have hmin := i64min_eq
  have hmax := i64max_eq
  have hdef : t.Sub u =
      if (u.Add (wrap64 (t.ns - u.ns))).Equal t then wrap64 (t.ns - u.ns)
      else if t.Before u then MinDuration else MaxDuration := rfl
  have hwr : (u.Add (wrap64 (t.ns - u.ns))).Equal t = true →
      wrap64 (t.ns - u.ns) = t.ns - u.ns := by
    intro hEq
    simp only [Time.Equal, decide_eq_true_eq] at hEq
    by_cases hgt : i64max < t.ns - u.ns
    · exfalso
      have hw : wrap64 (t.ns - u.ns) = t.ns - u.ns - 2 ^ 64 := by
        unfold wrap64
        omega
      rw [hw, Time.Add_sat_min u _ (by omega) (by omega)] at hEq
      simp only [MinTime] at hEq
      omega
    · by_cases hlt : t.ns - u.ns < i64min
      · exfalso
        have hw : wrap64 (t.ns - u.ns) = t.ns - u.ns + 2 ^ 64 := by
          unfold wrap64
          omega
        rw [hw, Time.Add_sat_max u _ (by omega) (by omega)] at hEq
        simp only [MaxTime] at hEq
        omega
      · exact wrap64_eq_self _ (by omega) (by omega)
  refine ⟨?_, ?_, ?_⟩
  · intro hEq
    exact ⟨by rw [hdef, if_pos hEq], hwr hEq⟩
  · intro hEq
    rw [hdef, if_neg (by simp [hEq])]
  · intro h1 h2
    by_cases hEq : (u.Add (wrap64 (t.ns - u.ns))).Equal t = true
    · rw [hdef, if_pos hEq]
      apply Time.eq_of_ns
      simpa [Time.Equal] using hEq
    · exfalso
      have hEq' : (u.Add (wrap64 (t.ns - u.ns))).Equal t = false := by
        revert hEq
        cases (u.Add (wrap64 (t.ns - u.ns))).Equal t <;> simp
      rw [hdef, if_neg (by simp [hEq'])] at h1 h2
      by_cases hb : t.Before u = true
      · rw [if_pos hb] at h1
        exact h1 rfl
      · have hb' : t.Before u = false := by
          revert hb
          cases t.Before u <;> simp
        rw [if_neg (by simp [hb'])] at h2
        exact h2 rfl

/-- C5 witness: for `t = 35`, `u = 10` the subtraction round-trips:
`u.Add (t.Sub u) = t`. -/
theorem C5_witness : Time.Add ⟨10⟩ (Time.Sub ⟨35⟩ ⟨10⟩) = ⟨35⟩ :=
  (C5_Sub_saturating ⟨35⟩ ⟨10⟩ (by decide) (by decide)).2.2 (by decide) (by decide)

/-- C6 (amended): `FromSeconds s` equals `s·10⁹` whenever the product is
representable, and saturates to `MaxTime` on positive overflow
(`s·10⁹ > MaxInt64`); on negative overflow it does NOT saturate — the
product wraps modulo `2^64` (see the counterexample).  `FromUnix` behaves
the same, with the additional `MaxTime` saturation when `ns ≥ 0` and
`s·10⁹ + ns` would exceed `MaxInt64`. -/
theorem C6_FromSeconds_FromUnix (s ns : Int) (hs : wf64 s) (hns : wf64 ns) :
    (i64min ≤ s * 10 ^ 9 → s * 10 ^ 9 ≤ i64max → FromSeconds s = ⟨s * 10 ^ 9⟩)
    ∧ (i64max < s * 10 ^ 9 → FromSeconds s = MaxTime)
    ∧ (s * 10 ^ 9 < i64min → FromSeconds s = ⟨wrap64 (s * 10 ^ 9)⟩)
    ∧ (0 ≤ ns → i64min ≤ s * 10 ^ 9 → s * 10 ^ 9 ≤ i64max - ns →
        FromUnix s ns = ⟨s * 10 ^ 9 + ns⟩)
    ∧ (0 ≤ ns → i64min ≤ s * 10 ^ 9 → s * 10 ^ 9 ≤ i64max →
        i64max - ns < s * 10 ^ 9 → FromUnix s ns = MaxTime)
    ∧ (i64max < s * 10 ^ 9 → FromUnix s ns = MaxTime) := by
  obtain ⟨hs1, hs2⟩ := hs
  obtain ⟨hn1, hn2⟩ := hns
  have hmin := i64min_eq
  have hmax := i64max_eq
  refine ⟨?_, ?_, ?_, ?_, ?_, ?_⟩
  · intro h1 h2
    have hc : ¬(s > i64max / 10 ^ 9) := by omega
    unfold FromSeconds
    rw [if_neg hc, wrap64_eq_self _ h1 h2]
  · intro h
    have hc : s > i64max / 10 ^ 9 := by omega
    unfold FromSeconds
    rw [if_pos hc]
  · intro h
    have hc : ¬(s > i64max / 10 ^ 9) := by omega
    unfold FromSeconds
    rw [if_neg hc]
  · intro h0 h1 h2
    have hc : ¬(s > i64max / 10 ^ 9) := by omega
    have hw1 : wrap64 (s * 10 ^ 9) = s * 10 ^ 9 := wrap64_eq_self _ h1 (by omega)
    have hw2 : wrap64 (i64max - ns) = i64max - ns := wrap64_eq_self _ (by omega) (by omega)
    have hc2 : ¬(s * 10 ^ 9 > i64max - ns) := by omega
    unfold FromUnix
    rw [if_neg hc]
    simp only [hw1, hw2]
    rw [if_neg hc2, wrap64_eq_self _ (by omega) (by omega)]
  · intro h0 h1 h2 h3
    have hc : ¬(s > i64max / 10 ^ 9) := by omega
    have hw1 : wrap64 (s * 10 ^ 9) = s * 10 ^ 9 := wrap64_eq_self _ h1 h2
    have hw2 : wrap64 (i64max - ns) = i64max - ns := wrap64_eq_self _ (by omega) (by omega)
    have hc2 : s * 10 ^ 9 > i64max - ns := by omega
    unfold FromUnix
    rw [if_neg hc]
    simp only [hw1, hw2]
    rw [if_pos hc2]
  · intro h
    have hc : s > i64max / 10 ^ 9 := by omega
    unfold FromUnix
    rw [if_pos hc]

/-- C6 witness: `FromSeconds 5 = ⟨5·10⁹⟩`, and
`FromSeconds (2^34) = MaxTime` since `2^34·10⁹` overflows `int64`. -/
theorem C6_witness :
    FromSeconds 5 = ⟨5000000000⟩ ∧ FromSeconds (2 ^ 34) = MaxTime := by
  have h1 := (C6_FromSeconds_FromUnix 5 0 (by decide) (by decide)).1
  have h2 := (C6_FromSeconds_FromUnix (2 ^ 34) 0 (by decide) (by decide)).2.1
  exact ⟨by simpa using h1 (by decide) (by decide), h2 (by decide)⟩

/-- C6 counterexample: the claim says `FromSeconds` saturates whenever
`s·10⁹` overflows, but for `s = -9223372037` (so `s·10⁹ < MinInt64`) the
code does not saturate: it wraps modulo `2^64`, returning the large positive instant
`9223372036709551616`, not `MaxTime` (nor `MinTime`). -/
theorem C6_counterexample :
    (-9223372037 : Int) * 10 ^ 9 < i64min
    ∧ FromSeconds (-9223372037) ≠ MaxTime
    ∧ FromSeconds (-9223372037) ≠ MinTime
    ∧ FromSeconds (-9223372037) = ⟨9223372036709551616⟩ := by
  refine ⟨by decide, by decide, by decide, by decide⟩

/-- C7: `SettingFromSpecAt` rejects exactly `value < 0` with `EINVAL`,
returns the disabled setting `{Enabled = false, Next = ZeroTime,
Period = interval}` exactly for `value = 0`, and otherwise returns
`{Enabled = true, Next = now.Add value, Period = interval}`;
`SettingFromAbsSpec` is analogous with rejection exactly when
`value < ZeroTime`. -/
theorem C7_constructors (value interval : Int) (now : Time) :
    (SettingFromSpecAt value interval now = .error .EINVAL ↔ value < 0)
    ∧ (SettingFromSpecAt value interval now = .ok ⟨false, ZeroTime, interval⟩ ↔ value = 0)
    ∧ (0 < value →
        SettingFromSpecAt value interval now = .ok ⟨true, now.Add value, interval⟩)
    ∧ (SettingFromAbsSpec ⟨value⟩ interval = .error .EINVAL ↔ value < 0)
    ∧ (SettingFromAbsSpec ⟨value⟩ interval = .ok ⟨false, ZeroTime, interval⟩ ↔ value = 0)
    ∧ (0 < value → SettingFromAbsSpec ⟨value⟩ interval = .ok ⟨true, ⟨value⟩, interval⟩) := by
  have hb : (Time.Before ⟨value⟩ ZeroTime) = decide (value < 0) := rfl
  have hz : (Time.IsZero ⟨value⟩) = decide (value = 0) := by
    simp [Time.IsZero, ZeroTime, Time.mk.injEq]
  rcases lt_trichotomy value 0 with hv | hv | hv
  · have h1 : value < 0 := hv
    have h2 : ¬(value = 0) := by omega
    refine ⟨?_, ?_, ?_, ?_, ?_, ?_⟩ <;>
      simp [SettingFromSpecAt, SettingFromAbsSpec, hb, hz, h1, h2] <;> omega
  · subst hv
    refine ⟨?_, ?_, ?_, ?_, ?_, ?_⟩ <;>
      simp [SettingFromSpecAt, SettingFromAbsSpec, hb, hz, ZeroTime, Time.Before]
  · have h1 : ¬(value < 0) := by omega
    have h2 : ¬(value = 0) := by omega
    refine ⟨?_, ?_, ?_, ?_, ?_, ?_⟩ <;>
      simp [SettingFromSpecAt, SettingFromAbsSpec, hb, hz, h1, h2, Setting.mk.injEq]

/-- C7 witness: a negative relative value is rejected with `EINVAL`. -/
theorem C7_witness : SettingFromSpecAt (-1) 5 ⟨0⟩ = .error .EINVAL :=
  (C7_constructors (-1) 5 ⟨0⟩).1.mpr (by decide)

/-! ## Claims C3, C9, C4, C8 about the `Timer` engine -/

/-- C3: on an unpaused timer, `SwapAnd` (i) advances the current setting to
`now` and notifies the listener of any accrued expirations, discarding the
`(Setting, Bool)` that notify returns (only the listener's state `l1`
advances); (ii) then invokes `f` exactly once when present; (iii) then
computes `s.At now`, installs the advanced setting, and notifies if that
advance produced expirations, this time honoring the listener's `update`
return; and returns `(now, the pre-swap setting as advanced to now)`. -/
theorem C3_SwapAnd_order (σ : Type) (L : Listener σ) (t : TimerState σ)
    (s : Setting) (hasF : Bool) (now : Time)
    (h : t.pauseState = .timerUnpaused) :
    Timer.SwapAnd L t s hasF now =
      (let old := t.setting.At now
       let l1 := if old.2 > 0 then (L.NotifyTimer t.lst old.2 old.1).1 else t.lst
       let nw := s.At now
       some
        (⟨(if nw.2 > 0 then
              (if (L.NotifyTimer l1 nw.2 nw.1).2.2 then (L.NotifyTimer l1 nw.2 nw.1).2.1
               else nw.1)
            else nw.1),
          .timerUnpaused,
          (if nw.2 > 0 then (L.NotifyTimer l1 nw.2 nw.1).1 else l1)⟩,
         (if old.2 > 0 then [TEvent.notifyEv old.2 old.1] else []) ++
           (if hasF then [TEvent.fcallEv] else []) ++
           (if nw.2 > 0 then [TEvent.notifyEv nw.2 nw.1] else []),
         now, old.1)) := by
  have c : ¬(t.pauseState ≠ .timerUnpaused) := by simp [h]
  unfold Timer.SwapAnd
  rw [if_neg c, h]

/-- C3 witness (spec scenario 6): setting `{Enabled, 10, 5}`, clock at 7,
`SwapAnd {Enabled, 100, 0}` with an `f`: `f` is invoked once, no listener
notification happens (neither setting has expired at 7), the new setting is
installed as-is, and `(now, old)` is returned un-advanced. -/
theorem C3_witness :
    Timer.SwapAnd ⟨fun u e _ => (u + e, ⟨false, ⟨0⟩, 0⟩, false)⟩
        (⟨⟨true, ⟨10⟩, 5⟩, .timerUnpaused, (0 : Nat)⟩ : TimerState Nat)
        ⟨true, ⟨100⟩, 0⟩ true ⟨7⟩ =
      some (⟨⟨true, ⟨100⟩, 0⟩, .timerUnpaused, 0⟩, [TEvent.fcallEv], ⟨7⟩, ⟨true, ⟨10⟩, 5⟩) := by
  have h := C3_SwapAnd_order Nat ⟨fun u e _ => (u + e, ⟨false, ⟨0⟩, 0⟩, false)⟩
    ⟨⟨true, ⟨10⟩, 5⟩, .timerUnpaused, 0⟩ ⟨true, ⟨100⟩, 0⟩ true ⟨7⟩ rfl
  simpa using h

/-- C9: when the expired timer's listener replaces the setting
(`update = true`), `Get` returns the setting as advanced by `Setting.At`
(before replacement) while the timer's stored setting becomes the
listener's replacement — the two can differ. -/
theorem C9_Get_replacement (σ : Type) (L : Listener σ) (t : TimerState σ) (now : Time)
    (h : t.pauseState = .timerUnpaused)
    (hexp : 0 < (t.setting.At now).2)
    (hrep : (L.NotifyTimer t.lst (t.setting.At now).2 (t.setting.At now).1).2.2 = true) :
    Timer.Get L t now =
      some (⟨(L.NotifyTimer t.lst (t.setting.At now).2 (t.setting.At now).1).2.1,
             .timerUnpaused,
             (L.NotifyTimer t.lst (t.setting.At now).2 (t.setting.At now).1).1⟩,
            [TEvent.notifyEv (t.setting.At now).2 (t.setting.At now).1],
            now, (t.setting.At now).1) := by
  have c : ¬(t.pauseState ≠ .timerUnpaused) := by simp [h]
  unfold Timer.Get
  rw [if_neg c, if_pos hexp]
  simp [hrep, h]

/-- C9 witness: a one-shot setting `{Enabled, 5, 0}` read at `now = 10`
fires once; the listener replaces the setting with `{Enabled, 100, 100}`;
`Get` returns the advanced setting `{disabled, 5, 0}` while the stored
setting is the replacement — and the two differ. -/
theorem C9_witness :
    Timer.Get ⟨fun _ _ _ => (PUnit.unit, ⟨true, ⟨100⟩, 100⟩, true)⟩
        (⟨⟨true, ⟨5⟩, 0⟩, .timerUnpaused, PUnit.unit⟩ : TimerState PUnit) ⟨10⟩ =
      some (⟨⟨true, ⟨100⟩, 100⟩, .timerUnpaused, PUnit.unit⟩,
        [TEvent.notifyEv 1 ⟨false, ⟨5⟩, 0⟩], ⟨10⟩, ⟨false, ⟨5⟩, 0⟩)
    ∧ (⟨false, ⟨5⟩, 0⟩ : Setting) ≠ ⟨true, ⟨100⟩, 100⟩ := by
  have h := C9_Get_replacement PUnit ⟨fun _ _ _ => (PUnit.unit, ⟨true, ⟨100⟩, 100⟩, true)⟩
    ⟨⟨true, ⟨5⟩, 0⟩, .timerUnpaused, PUnit.unit⟩ ⟨10⟩ rfl (by decide) (by decide)
  exact ⟨by simpa using h, by decide⟩

theorem Timer.Tick_notify_pos (σ : Type) (L : Listener σ) (t : TimerState σ)
    (now : Time) (e : Nat) (sv : Setting)
    (hm : TEvent.notifyEv e sv ∈ (Timer.Tick L t now).2) : 0 < e := by
  unfold Timer.Tick at hm
  by_cases h1 : t.pauseState ≠ .timerUnpaused
  · rw [if_pos h1] at hm
    simp at hm
  · rw [if_neg h1] at hm
    by_cases h2 : (t.setting.At now).2 > 0
    · rw [if_pos h2] at hm
      simp at hm
      obtain ⟨he2, _⟩ := hm
      subst he2
      exact h2
    · rw [if_neg h2] at hm
      simp at hm

theorem Timer.Get_notify_pos (σ : Type) (L : Listener σ) (t : TimerState σ)
    (now : Time) (res : TimerState σ × List TEvent × Time × Setting)
    (hr : Timer.Get L t now = some res) (e : Nat) (sv : Setting)
    (hm : TEvent.notifyEv e sv ∈ res.2.1) : 0 < e := by
  unfold Timer.Get at hr
  by_cases h1 : t.pauseState ≠ .timerUnpaused
  · rw [if_pos h1] at hr
    exact absurd hr (by simp)
  · rw [if_neg h1] at hr
    by_cases h2 : (t.setting.At now).2 > 0
    · rw [if_pos h2] at hr
      replace hr := Option.some.inj hr
      subst hr
      simp at hm
      obtain ⟨he2, _⟩ := hm
      subst he2
      exact h2
    · rw [if_neg h2] at hr
      replace hr := Option.some.inj hr
      subst hr
      simp at hm

theorem Timer.SwapAnd_notify_pos (σ : Type) (L : Listener σ) (t : TimerState σ)
    (s : Setting) (hasF : Bool) (now : Time)
    (res : TimerState σ × List TEvent × Time × Setting)
    (hr : Timer.SwapAnd L t s hasF now = some res) (e : Nat) (sv : Setting)
    (hm : TEvent.notifyEv e sv ∈ res.2.1) : 0 < e := by
  unfold Timer.SwapAnd at hr
  by_cases h1 : t.pauseState ≠ .timerUnpaused
  · rw [if_pos h1] at hr
    exact absurd hr (by simp)
  · rw [if_neg h1] at hr
    replace hr := Option.some.inj hr
    subst hr
    simp only [List.mem_append] at hm
    rcases hm with (hm | hm) | hm
    · by_cases hc1 : (t.setting.At now).2 > 0
      · rw [if_pos hc1] at hm
        simp at hm
        obtain ⟨he2, _⟩ := hm
        subst he2
        exact hc1
      · rw [if_neg hc1] at hm
        simp at hm
    · by_cases hf : hasF
      · rw [if_pos hf] at hm
        simp at hm
      · rw [if_neg hf] at hm
        simp at hm
    · by_cases hc2 : (s.At now).2 > 0
      · rw [if_pos hc2] at hm
        simp at hm
        obtain ⟨he2, _⟩ := hm
        subst he2
        exact hc2
      · rw [if_neg hc2] at hm
        simp at hm

/-- Every listener event emitted by a single `step` has a positive
expiration count: the source guards each `NotifyTimer` call with
`exp > 0`. -/
theorem Timer.step_notify_pos (σ : Type) (L : Listener σ) (t : TimerState σ)
    (op : TOp) (r : TimerState σ × List TEvent)
    (hstep : Timer.step L t op = some r)
    (e : Nat) (sv : Setting) (hm : TEvent.notifyEv e sv ∈ r.2) : 0 < e := by
  cases op with
  | tickOp now =>
    replace hstep := Option.some.inj hstep
    subst hstep
    exact Timer.Tick_notify_pos σ L t now e sv hm
  | getOp now =>
    cases hget : Timer.Get L t now with
    | none =>
      rw [Timer.step, hget] at hstep
      exact absurd hstep (by simp)
    | some a =>
      rw [Timer.step, hget] at hstep
      replace hstep := Option.some.inj hstep
      subst hstep
      exact Timer.Get_notify_pos σ L t now a hget e sv hm
  | swapOp s2 now =>
    cases hget : Timer.SwapAnd L t s2 false now with
    | none =>
      rw [Timer.step, Timer.Swap, hget] at hstep
      exact absurd hstep (by simp)
    | some a =>
      rw [Timer.step, Timer.Swap, hget] at hstep
      replace hstep := Option.some.inj hstep
      subst hstep
      exact Timer.SwapAnd_notify_pos σ L t s2 false now a hget e sv hm
  | swapAndOp s2 hasF now =>
    cases hget : Timer.SwapAnd L t s2 hasF now with
    | none =>
      rw [Timer.step, hget] at hstep
      exact absurd hstep (by simp)
    | some a =>
      rw [Timer.step, hget] at hstep
      replace hstep := Option.some.inj hstep
      subst hstep
      exact Timer.SwapAnd_notify_pos σ L t s2 hasF now a hget e sv hm
  | pauseOp =>
    replace hstep := Option.some.inj hstep
    subst hstep
    simp at hm
  | resumeOp =>
    replace hstep := Option.some.inj hstep
    subst hstep
    simp at hm
  | destroyOp =>
    replace hstep := Option.some.inj hstep
    subst hstep
    simp at hm

/-- C4: across every sequence of timer operations (`Tick`, `Get`, `Swap`,
`SwapAnd`, and the rest), every `NotifyTimer(exp, setting)` invocation
recorded in the run's event trace has `exp > 0`. -/
theorem C4_notify_positive (σ : Type) (L : Listener σ) (t : TimerState σ)
    (ops : List TOp) (e : Nat) (sv : Setting)
    (hm : TEvent.notifyEv e sv ∈ (Timer.run L t ops).2) : 0 < e := by
  induction ops generalizing t with
  | nil =>
    simp [Timer.run] at hm
  | cons op ops ih =>
    unfold Timer.run at hm
    cases hstep : Timer.step L t op with
    | none =>
      rw [hstep] at hm
      simp at hm
    | some r =>
      rw [hstep] at hm
      simp only [List.mem_append] at hm
      rcases hm with hm | hm
      · exact Timer.step_notify_pos σ L t op r hstep e sv hm
      · exact ih r.1 hm

/-- C4 witness: ticking a timer holding the periodic setting
`{Enabled, 10, 10}` at `now = 35` emits exactly one notify event, with the
positive count `3`. -/
theorem C4_witness :
    TEvent.notifyEv 3 ⟨true, ⟨40⟩, 10⟩ ∈
      (Timer.run (⟨fun u e _ => (u + e, ⟨false, ⟨0⟩, 0⟩, false)⟩ : Listener Nat)
        ⟨⟨true, ⟨10⟩, 10⟩, .timerUnpaused, 0⟩ [TOp.tickOp ⟨35⟩]).2
    ∧ 0 < 3 := by
  refine ⟨by decide, ?_⟩
  exact C4_notify_positive Nat ⟨fun u e _ => (u + e, ⟨false, ⟨0⟩, 0⟩, false)⟩
    ⟨⟨true, ⟨10⟩, 10⟩, .timerUnpaused, 0⟩ [TOp.tickOp ⟨35⟩] 3 ⟨true, ⟨40⟩, 10⟩ (by decide)

theorem Timer.Destroy_fixed (σ : Type) (t : TimerState σ)
    (hd : t.pauseState = .timerDestroyed) (he : t.setting.Enabled = false) :
    Timer.Destroy t = t := by
  obtain ⟨⟨en, nx, pd⟩, ps, l⟩ := t
  simp only at hd he
  subst hd
  subst he
  rfl

theorem Timer.step_destroyed (σ : Type) (L : Listener σ) (t : TimerState σ)
    (op : TOp) (hd : t.pauseState = .timerDestroyed)
    (he : t.setting.Enabled = false) :
    Timer.step L t op = none ∨ Timer.step L t op = some (t, []) := by
  have hne : t.pauseState ≠ .timerUnpaused := by rw [hd]; simp
  have hnp : t.pauseState ≠ .timerPaused := by rw [hd]; simp
  cases op with
  | tickOp now =>
    right
    simp only [Timer.step, Timer.Tick, if_pos hne]
  | getOp now =>
    left
    simp only [Timer.step, Timer.Get, if_pos hne]
    rfl
  | swapOp s2 now =>
    left
    simp only [Timer.step, Timer.Swap, Timer.SwapAnd, if_pos hne]
    rfl
  | swapAndOp s2 hasF now =>
    left
    simp only [Timer.step, Timer.SwapAnd, if_pos hne]
    rfl
  | pauseOp =>
    right
    simp only [Timer.step, Timer.Pause, if_pos hne]
  | resumeOp =>
    right
    simp only [Timer.step, Timer.Resume, if_pos hnp]
  | destroyOp =>
    right
    simp only [Timer.step, Timer.Destroy_fixed σ t hd he]

theorem Timer.run_destroyed (σ : Type) (L : Listener σ) (t : TimerState σ)
    (hd : t.pauseState = .timerDestroyed) (he : t.setting.Enabled = false)
    (ops : List TOp) :
    Timer.run L t ops = (t, []) := by
  induction ops with
  | nil => rfl
  | cons op ops ih =>
    unfold Timer.run
    rcases Timer.step_destroyed σ L t op hd he with h | h <;> rw [h]
    simp [ih]

/-- C8: `Destroy` is terminal: it disables the setting and sets the pause
state to `timerDestroyed`, and afterwards every sequence of operations
leaves the timer state unchanged and emits no listener event whatsoever
(`Tick` is a no-op, `Pause`/`Resume` are no-ops, and `Get`/`Swap`/`SwapAnd`
panic before notifying). -/
theorem C8_Destroy_terminal (σ : Type) (L : Listener σ) (t : TimerState σ)
    (ops : List TOp) :
    (Timer.Destroy t).setting.Enabled = false
    ∧ (Timer.Destroy t).pauseState = .timerDestroyed
    ∧ Timer.run L (Timer.Destroy t) ops = (Timer.Destroy t, []) :=
  ⟨rfl, rfl, Timer.run_destroyed σ L (Timer.Destroy t) rfl rfl ops⟩

end GvisorTime
